import Mathlib

/-!
Verification development for the NeuroVision repository
(`vision.py`, `neuro_architect.py`).

The Python source is shallowly embedded: graphs become explicit
node/edge lists (networkx `DiGraph` insertion order is the list order),
Python floats become exact rationals (`ℚ`) — all float arithmetic in the
source is of the form `min(1.0, x + c)` or small integer arithmetic, so
the claimed properties are insensitive to rounding — and Python dicts
become association lists with unique keys.
-/

namespace NeuroVision

/-! ## Code-point lexicographic order on strings

Python compares strings lexicographically by code point; the same order
is defined here as an executable boolean comparison. -/

/-- Lexicographic comparison of char lists by code point. -/

def charListLe : List Char → List Char → Bool
  | [], _ => true
  | _ :: _, [] => false
  | a :: as, b :: bs =>
    if a < b then true
    else if b < a then false
    else charListLe as bs

/-- Lexicographic `≤` on strings, as Python's string comparison. -/

def strLe (a b : String) : Bool := charListLe a.data b.data

/-- The propositional form of `strLe`, used as sort relation. -/

def strLeR (a b : String) : Prop := strLe a b = true

instance : DecidableRel strLeR :=
  fun a b => inferInstanceAs (Decidable (strLe a b = true))

instance : IsTotal String strLeR :=
  ⟨fun a b => by
    have h : ∀ as bs : List Char,
    charListLe as bs = true ∨ charListLe bs as = true := by
      intro as
      induction as with
      | nil => intro bs; left; rfl
      | cons a as ih =>
        intro bs
        cases bs with
        | nil => right; rfl
        | cons b bs =>
          rcases lt_trichotomy a b with h | h | h
          · left; simp [charListLe, h]
          · subst h
            rcases ih bs with h' | h'
            · left; simpa [charListLe, lt_irrefl] using h'
            · right; simpa [charListLe, lt_irrefl] using h'
          · right; simp [charListLe, h]
    exact h a.data b.data⟩

instance : IsTrans String strLeR :=
  ⟨fun a b c => by
    have h : ∀ as bs cs : List Char,
    charListLe as bs = true → charListLe bs cs = true → charListLe as cs = true := by
      intro as
      induction as with
      | nil => intro bs cs _ _; rfl
      | cons a as ih =>
        intro bs cs h1 h2
        cases bs with
        | nil => simp [charListLe] at h1
        | cons b bs =>
          cases cs with
          | nil => simp [charListLe] at h2
          | cons c cs =>
            rcases lt_trichotomy a b with hab | hab | hab
            · rcases lt_trichotomy b c with hbc | hbc | hbc
              · simp [charListLe, lt_trans hab hbc]
              · subst hbc; simp [charListLe, hab]
              · simp [charListLe, lt_asymm hbc, hbc] at h2
            · subst hab
              rcases lt_trichotomy a c with hac | hac | hac
              · simp [charListLe, hac]
              · subst hac
                simp only [charListLe, lt_irrefl, if_false] at h1 h2 ⊢
                exact ih bs cs h1 h2
              · simp [charListLe, lt_asymm hac, hac] at h2
            · simp [charListLe, lt_asymm hab, hab] at h1
    exact h a.data b.data c.data⟩

instance : IsAntisymm String strLeR :=
  ⟨fun a b h1 h2 => by
    have h : ∀ as bs : List Char,
    charListLe as bs = true → charListLe bs as = true → as = bs := by
      intro as
      induction as with
      | nil =>
        intro bs _ h2
        cases bs with
        | nil => rfl
        | cons b bs => simp [charListLe] at h2
      | cons a as ih =>
        intro bs h1 h2
        cases bs with
        | nil => simp [charListLe] at h1
        | cons b bs =>
          rcases lt_trichotomy a b with hab | hab | hab
          · simp [charListLe, lt_asymm hab, hab] at h2
          · subst hab
            simp only [charListLe, lt_irrefl, if_false] at h1 h2
            rw [ih bs h1 h2]
          · simp [charListLe, lt_asymm hab, hab] at h1
    cases a with
    | mk da =>
      cases b with
      | mk db => exact congrArg String.mk (h da db h1 h2)⟩

/-- String comparison `n.endswith(t)` from Python, on code points. -/

def strEndsWith (n t : String) : Bool := t.data.isSuffixOf n.data

/-! ## The dependency graph (networkx `DiGraph`) -/

/-- Graph node with its networkx attributes (`node_type`, `name`), as added
by `VisionArchitect.build_graph` / `NeuroArchitect.ingest_telemetry`. -/

structure GNode where
  id : String
  node_type : String
  name : String
deriving DecidableEq, Repr

/-- Directed graph edge with its `edge_type` attribute. -/

structure GEdge where
  source : String
  target : String
  edge_type : String
deriving DecidableEq, Repr

/-- A networkx `DiGraph` as built by this code base: nodes and edges in
insertion order.  A faithful representation of a `DiGraph` has no duplicate
node ids and no duplicate (source, target) pairs. -/

structure Graph where
  nodes : List GNode
  edges : List GEdge
deriving DecidableEq, Repr

def Graph.nodeIds (G : Graph) : List String := G.nodes.map (·.id)

/-- Membership test `x in G` of networkx. -/

def Graph.hasNode (G : Graph) (i : String) : Bool := G.nodeIds.contains i

/-- Edge membership test: is there an edge from `s` to `t`. -/

def Graph.hasEdge (G : Graph) (s t : String) : Bool :=
  G.edges.any (fun e => e.source == s && e.target == t)

/-- Embedding of `list(G.predecessors(t))`: the distinct nodes holding an
edge into `t`, in node order. -/

def predecessors (G : Graph) (t : String) : List String :=
  G.nodeIds.filter (fun n => G.hasEdge n t)

/-- One step of the predecessor closure used to embed `nx.ancestors`:
all nodes already in `S` or holding an edge into a member of `S`,
as a canonical sublist of `G.nodeIds`. -/

def ancestorsStep (G : Graph) (S : List String) : List String :=
  G.nodeIds.filter (fun n =>
    S.contains n || G.edges.any (fun e => e.source == n && S.contains e.target))

/-- Iterate `ancestorsStep` to its fixpoint (reached within `|nodes|` steps). -/

def ancestorsIter (G : Graph) : Nat → List String → List String
  | 0, S => S
  | k+1, S =>
    let T := ancestorsStep G S
    if T == S then S else ancestorsIter G k T

/-- Embedding of `nx.ancestors(G, b)`: all nodes having a path to `b`,
excluding `b` itself (networkx always excludes the source node). -/

def ancestors (G : Graph) (b : String) : List String :=
  (ancestorsIter G (G.nodeIds.length + 1) (ancestorsStep G [b])).filter (fun n => n != b)

/-! ## Impact analysis (`NeuroArchitect.analyze_impact`) -/

/-- Embedding of `ImpactPrediction` (`neuro_architect.py`).  `risk_score`
is integer-valued in the source (`min(100.0, 10*d + 2*r)` on exact small
integers), so it is modelled as a natural number. -/

structure ImpactPrediction where
  target_node : String
  direct_impact : List String
  ripple_effect : List String
  risk_score : Nat
deriving DecidableEq, Repr

/-- Target resolution of `NeuroArchitect.analyze_impact` (lines 142-148):
exact membership first, then the first node id that ends with the target. -/

def resolveTarget (G : Graph) (t : String) : Option String :=
  if G.hasNode t then some t
  else (G.nodeIds.filter (fun n => strEndsWith n t)).head?

/-- The union set `ripple_dependents` accumulated by the
`for bid in direct_dependents: ripple_dependents.update(nx.ancestors(...))`
loop, represented canonically as a sublist of `G.nodeIds` (a Python `set`
is determined by membership only). -/

def rippleUnion (G : Graph) (direct : List String) : List String :=
  G.nodeIds.filter (fun n =>
    (direct.foldl (fun acc b => acc ++ ancestors G b) []).contains n)

/-- Core of `analyze_impact` once the target is resolved (lines 150-161).
The Python iteration over the set `ripple_dependents` has unspecified
order; following the spec's determinism directive it is embedded as the
lexicographically sorted enumeration of the set. -/

def analyzeAt (G : Graph) (t : String) : ImpactPrediction :=
  let direct := predecessors G t
  let sortedUnion := List.insertionSort strLeR (rippleUnion G direct)
  let ripple_list := sortedUnion.filter (fun n => !direct.contains n && n != t)
  { target_node := t
    direct_impact := direct
    ripple_effect := ripple_list.take 20
    risk_score := min 100 (10 * direct.length + 2 * ripple_list.length) }

/-- Embedding of `NeuroArchitect.analyze_impact`. -/

def analyze_impact (G : Graph) (t : String) : ImpactPrediction :=
  match resolveTarget G t with
  | some t' => analyzeAt G t'
  | none => ⟨t, [], [], 0⟩

/-- The ripple set exactly as the spec words it: members of the union of
ancestors of the direct dependents that are neither direct dependents nor
the target, as a canonical sublist of `G.nodeIds`. -/

def specRipple (G : Graph) (t : String) (direct : List String) : List String :=
  G.nodeIds.filter (fun n =>
    direct.any (fun b => (ancestors G b).contains n) && !direct.contains n && n != t)

/-- A small concrete graph: `a → b → t`. -/

def exGraph : Graph :=
  ⟨[⟨"a", "file", "a"⟩, ⟨"b", "file", "b"⟩, ⟨"t", "file", "t"⟩],
   [⟨"a", "b", "import"⟩, ⟨"b", "t", "import"⟩]⟩

def ripNames : List String :=
  ["c","d","e","f","g","h","i","j","k","l","m","n","o","p","q","r","s","u","v","w","x"]

/-- A 23-node graph: `b` is the only direct dependent of `t`, and 21
further nodes each hold an edge into `b`, so the pre-truncation ripple
list has 21 entries. -/

def wideGraph : Graph :=
  ⟨(["t", "b"] ++ ripNames).map (fun i => ⟨i, "file", i⟩),
   ⟨"b", "t", "import"⟩ :: ripNames.map (fun a => ⟨a, "b", "import"⟩)⟩

/-! ## Telemetry state (`NeuronState`, `NeuroArchitect.ingest_telemetry`)

Python floats are embedded as exact rationals; the source only ever
computes `min(1.0, x + 0.2)` and `min(1.0, x + 0.1)`, whose claimed
clamping behaviour is rounding-insensitive.  Timestamps are opaque
(`Nat`), Python string dicts are association lists updated in place. -/

/-- Embedding of the dataclass `NeuronState` (`neuro_architect.py` 21-27). -/

structure NeuronState where
  last_active : Option Nat
  activation_level : ℚ
  error_rate : ℚ
  active_variables : List (String × String)
  logs : List String
deriving DecidableEq, Repr

/-- The dataclass field defaults: `NeuronState()`. -/

def NeuronState.init : NeuronState := ⟨none, 0, 0, [], []⟩

/-- The serialized form produced by `NeuronState.to_dict` (the persisted
overlay schema of spec section 6). -/

structure NeuronStateDict where
  last_active : Option Nat
  activation_level : ℚ
  error_rate : ℚ
  active_variables : List (String × String)
  logs : List String
deriving DecidableEq, Repr

/-- Embedding of `NeuronState.to_dict` (lines 29-36): all fields pass
through except `logs`, serialized as the Python slice `logs[-5:]`. -/

def NeuronState.to_dict (s : NeuronState) : NeuronStateDict :=
  ⟨s.last_active, s.activation_level, s.error_rate, s.active_variables,
   s.logs.drop (s.logs.length - 5)⟩

/-- Overwrite or append one key in an association list, keeping position —
the effect of a single Python `dict` assignment. -/

def setKey : List (String × String) → String → String → List (String × String)
  | [], k, v => [(k, v)]
  | (k', v') :: rest, k, v =>
    if k' = k then (k, v) :: rest else (k', v') :: setKey rest k v

/-- Embedding of Python `dict.update` (used for `active_variables`). -/

def dictUpdate (d p : List (String × String)) : List (String × String) :=
  p.foldl (fun acc kv => setKey acc kv.1 kv.2) d

/-- The telemetry event types dispatched by `ingest_telemetry`
(lines 130-136); `other` covers any unknown `event_type` string, and the
error message is `payload.get('message', 'Unknown')`. -/

inductive Event where
  | execution
  | error (message : Option String)
  | variable_update (payload : List (String × String))
  | other
deriving DecidableEq, Repr

/-- Per-event state mutation of `ingest_telemetry` (lines 127-136):
`last_active` is always refreshed; `execution` bumps the activation level
by 0.2 clamped at 1; `error` bumps the error rate by 0.1 clamped at 1 and
appends an `ERROR:` log line; `variable_update` merges the payload. -/

def applyEvent (now : Nat) (s : NeuronState) (e : Event) : NeuronState :=
  let s1 : NeuronState := { s with last_active := some now }
  match e with
  | .execution => { s1 with activation_level := min 1 (s1.activation_level + 1/5) }
  | .error msg =>
      { s1 with
        error_rate := min 1 (s1.error_rate + 1/10),
        logs := s1.logs ++ ["ERROR: " ++ msg.getD "Unknown"] }
  | .variable_update p => { s1 with active_variables := dictUpdate s1.active_variables p }
  | .other => s1

/-- A finite sequence of ingestion events applied to one node's state. -/

def applyEvents (s : NeuronState) (evs : List (Nat × Event)) : NeuronState :=
  evs.foldl (fun st e => applyEvent e.1 st e.2) s

/-- The claimed invariant: `activation_level` and `error_rate` lie in
the interval `[0, 1]`. -/

def stateInBounds (s : NeuronState) : Prop :=
  0 ≤ s.activation_level ∧ s.activation_level ≤ 1 ∧
  0 ≤ s.error_rate ∧ s.error_rate ≤ 1

/-! ## Persistence (`save_state` / `load_state`, `neuro_architect.py` 82-118)

The brain file is embedded as: absent, unparsable, or a parsed mapping
from node ids to serialized states (the schema of spec section 6).  The
state map is a Python dict: an association list with unique keys. -/

/-- The persisted overlay file as `load_state` can encounter it. -/

inductive BrainFile where
  | missing
  | malformed
  | parsed (entries : List (String × NeuronStateDict))
deriving DecidableEq, Repr

/-- Association-list lookup, the dict access `self._states[node_id]`. -/

def lookupState : List (String × NeuronState) → String → Option NeuronState
  | [], _ => none
  | (k, s) :: rest, id => if k = id then some s else lookupState rest id

/-- The key set of the state dict. -/

def stateKeys (m : List (String × NeuronState)) : List String := m.map (·.1)

/-- Field restoration of one node from a file entry (lines 109-115):
`last_active` only when present (the Python truthiness guard), every other
field unconditionally. -/

def updateFromDict (s : NeuronState) (d : NeuronStateDict) : NeuronState :=
  { last_active := match d.last_active with
      | some ts => some ts
      | none => s.last_active
    activation_level := d.activation_level
    error_rate := d.error_rate
    active_variables := d.active_variables
    logs := d.logs }

/-- One iteration of the load loop: mutate the state with key `k` in
place if present; ids absent from the map are dropped (line 108). -/

def applyFileEntry (m : List (String × NeuronState)) (k : String)
    (d : NeuronStateDict) : List (String × NeuronState) :=
  m.map (fun p => if p.1 = k then (p.1, updateFromDict p.2 d) else p)

/-- The load loop over all file entries. -/

def loadEntries (es : List (String × NeuronStateDict))
    (m : List (String × NeuronState)) : List (String × NeuronState) :=
  es.foldl (fun acc e => applyFileEntry acc e.1 e.2) m

/-- Embedding of `NeuroArchitect.load_state` (lines 99-118): a missing
file is a no-op, a malformed file is caught and treated as empty (no
update is applied), a parsed file updates existing ids in place. -/

def load_state (f : BrainFile) (m : List (String × NeuronState)) :
    List (String × NeuronState) :=
  match f with
  | .missing => m
  | .malformed => m
  | .parsed es => loadEntries es m

/-- Embedding of `NeuroArchitect.save_state` (lines 82-97): the file
holds `to_dict` of every state, keyed by node id. -/

def save_state (m : List (String × NeuronState)) : BrainFile :=
  .parsed (m.map (fun p => (p.1, p.2.to_dict)))

/-- State initialization of `NeuroArchitect._initialize` (lines 74-75):
one fresh `NeuronState` per graph node. -/

def initialize_states (nodeIds : List String) : List (String × NeuronState) :=
  nodeIds.map (fun n => (n, NeuronState.init))

/-- The full rebuild of `_initialize`: fresh states, then overlay load. -/

def rebuild (nodeIds : List String) (f : BrainFile) :
    List (String × NeuronState) :=
  load_state f (initialize_states nodeIds)

/-! ## Claim C6 -/

/-- An overlay file carrying a nonzero persisted activation level. -/

def brainEx : BrainFile := .parsed [("a", ⟨none, 1, 0, [], []⟩)]

/-- A state with seven log lines and nonzero levels, used as witness. -/

def stFull : NeuronState :=
  ⟨some 5, 1, 1, [("k", "v")], ["e1", "e2", "e3", "e4", "e5", "e6", "e7"]⟩

/-! ## Graph building (`VisionArchitect.build_graph`, `vision.py` 107-122) -/

/-- The scanner's node record (`vision.py` dataclass `DependencyNode`). -/

structure DependencyNode where
  name : String
  node_type : String
  file_path : Option String
deriving DecidableEq, Repr

/-- The scanner's edge record (`vision.py` dataclass `DependencyEdge`). -/

structure DependencyEdge where
  source : String
  target : String
  edge_type : String
deriving DecidableEq, Repr

/-- Python string interpolation of an optional value (`None` prints as
the string `None`). -/

def pyStr : Option String → String
  | some s => s
  | none => "None"

/-- The unique node key computed in `build_graph` (line 111):
`f"{file_path}::{name}"` for classes and functions, else the file path. -/

def nodeKey (n : DependencyNode) : String :=
  if n.node_type = "class" || n.node_type = "function" then
    pyStr n.file_path ++ "::" ++ n.name
  else pyStr n.file_path

/-- networkx `G.add_node(id, ...)`: insert at the end if absent, else keep
the position and overwrite the attributes. -/

def addNode (G : Graph) (id ty nm : String) : Graph :=
  if G.hasNode id then
    { G with nodes := G.nodes.map (fun m => if m.id = id then ⟨id, ty, nm⟩ else m) }
  else
    { G with nodes := G.nodes ++ [⟨id, ty, nm⟩] }

/-- networkx `G.add_edge(s, t, ...)` at the two call sites of
`build_graph`, where both endpoints are already present: insert the edge
if the (source, target) pair is new, else overwrite its attributes. -/

def addEdge (G : Graph) (s t ty : String) : Graph :=
  if G.edges.any (fun e => e.source == s && e.target == t) then
    { G with edges := G.edges.map (fun e =>
        if e.source == s && e.target == t then ⟨s, t, ty⟩ else e) }
  else
    { G with edges := G.edges ++ [⟨s, t, ty⟩] }

/-- One iteration of the edge loop of `build_graph` (lines 114-121): both
endpoints present — insert; source present only — auto-create the missing
target as a placeholder `module` node, then insert; source absent — the
edge is skipped. -/

def buildStep (G : Graph) (e : DependencyEdge) : Graph :=
  if G.hasNode e.source && G.hasNode e.target then
    addEdge G e.source e.target e.edge_type
  else if G.hasNode e.source then
    addEdge (if G.hasNode e.target then G else addNode G e.target "module" e.target)
      e.source e.target e.edge_type
  else G

/-- Embedding of `VisionArchitect.build_graph`. -/

def build_graph (nodes : List DependencyNode) (edges : List DependencyEdge) : Graph :=
  edges.foldl buildStep
    (nodes.foldl (fun G n => addNode G (nodeKey n) n.node_type n.name) ⟨[], []⟩)

/-- The (source, target) pair is present among the graph's edges. -/

def hasPair (G : Graph) (s t : String) : Prop :=
  ∃ ty, (⟨s, t, ty⟩ : GEdge) ∈ G.edges

/-- Every edge's endpoints resolve to an existing node. -/

def edgesClosed (G : Graph) : Prop :=
  ∀ e ∈ G.edges, G.hasNode e.source = true ∧ G.hasNode e.target = true

/-- Every node either comes from the given key list or is a placeholder
typed `module`. -/

def nodesFromOrModule (keys : List String) (G : Graph) : Prop :=
  ∀ gn ∈ G.nodes, gn.id ∈ keys ∨ gn.node_type = "module"

/-! ## Import scanning (`VisionArchitect.scan_project`, `vision.py` 60-70) -/

/-- The fixed exclusion set of standard module names (line 69). -/

def pythonImportExclusions : List String :=
  ["os", "sys", "json", "typing", "logging", "pathlib", "datetime", "ast"]

/-- Characters before the first dot: Python `name.split('.')[0]`. -/

def takeUntilDot : List Char → List Char
  | [] => []
  | c :: cs => if c = '.' then [] else c :: takeUntilDot cs

/-- The top-level module name of a dotted module path. -/

def topLevelModule (name : String) : String := ⟨takeUntilDot name.data⟩

/-- Embedding of the `ast.Import` branch of `scan_project` (lines 62-70):
only `node.names[0]` is consulted — `module = node.names[0].name.split('.')[0]` —
and an `import` edge is appended unless the name is empty or in the
exclusion set.  (The `ast` module guarantees at least one name; the empty
list is mapped to no edge.) -/

def importEdges (file_node_id : String) (names : List String) : List DependencyEdge :=
  match names with
  | [] => []
  | n1 :: _ =>
    if topLevelModule n1 != ""
        && !(pythonImportExclusions.contains (topLevelModule n1)) then
      [⟨file_node_id, topLevelModule n1, "import"⟩]
    else []

/-! ## Lemmas about the ripple computation -/

theorem strContains_append (l₁ l₂ : List String) (n : String) :
    (l₁ ++ l₂).contains n = (l₁.contains n || l₂.contains n) := by
  simp [List.contains, List.elem_iff]

theorem contains_rippleFold (G : Graph) (direct acc : List String) (n : String) :
    (direct.foldl (fun l b => l ++ ancestors G b) acc).contains n
      = (acc.contains n || direct.any (fun b => (ancestors G b).contains n)) := by
  induction direct generalizing acc with
  | nil => simp
  | cons d ds ih =>
    simp only [List.foldl_cons, List.any_cons, ih, strContains_append, Bool.or_assoc]

theorem rippleUnion_eq_filter_any (G : Graph) (direct : List String) :
    rippleUnion G direct
      = G.nodeIds.filter (fun n => direct.any (fun b => (ancestors G b).contains n)) := by
  unfold rippleUnion
  have hp : (fun n => (direct.foldl (fun l b => l ++ ancestors G b) []).contains n)
      = fun n => direct.any (fun b => (ancestors G b).contains n) := by
    funext n
    rw [contains_rippleFold]
    simp
  rw [hp]

theorem ripple_filter_eq (G : Graph) (t : String) :
    (List.insertionSort strLeR (rippleUnion G (predecessors G t))).filter
      (fun n => !(predecessors G t).contains n && n != t)
    = List.insertionSort strLeR (specRipple G t (predecessors G t)) := by
  refine List.eq_of_perm_of_sorted ?_ ((List.sorted_insertionSort strLeR _).filter _)
    (List.sorted_insertionSort strLeR _)
  have h1 : List.Perm
      ((List.insertionSort strLeR (rippleUnion G (predecessors G t))).filter
        (fun n => !(predecessors G t).contains n && n != t))
      ((rippleUnion G (predecessors G t)).filter
        (fun n => !(predecessors G t).contains n && n != t)) :=
    (List.perm_insertionSort strLeR _).filter _
  have h2 : (rippleUnion G (predecessors G t)).filter
      (fun n => !(predecessors G t).contains n && n != t)
      = specRipple G t (predecessors G t) := by
    rw [rippleUnion_eq_filter_any, List.filter_filter, specRipple]
    congr 1
    funext n
    rw [Bool.and_comm, Bool.and_assoc]
  have h3 : List.Perm (specRipple G t (predecessors G t))
      (List.insertionSort strLeR (specRipple G t (predecessors G t))) :=
    (List.perm_insertionSort strLeR _).symm
  rw [h2] at h1
  exact h1.trans h3

/-! ## Claim C1 -/

/-- C1: for every graph and every resolvable target id, the `ripple_effect`
returned by `analyze_impact` is the union of the transitive predecessors
(ancestors) of every direct dependent, minus the direct dependents and the
target itself, truncated to the first 20 entries of its lexicographically
sorted enumeration, and the returned list is sorted lexicographically. -/

theorem c1_ripple_effect_spec (G : Graph) (t t' : String)
    (h : resolveTarget G t = some t') :
    (analyze_impact G t).ripple_effect
        = (List.insertionSort strLeR (specRipple G t' (predecessors G t'))).take 20 ∧
    (analyze_impact G t).ripple_effect.Sorted strLeR ∧
    (analyze_impact G t).ripple_effect.length ≤ 20 ∧
    ∀ n ∈ (analyze_impact G t).ripple_effect,
      (∃ b ∈ (analyze_impact G t).direct_impact, n ∈ ancestors G b) ∧
      n ∉ (analyze_impact G t).direct_impact ∧ n ≠ t' := by
  have hA : analyze_impact G t = analyzeAt G t' := by
    simp only [analyze_impact, h]
  have hre : (analyzeAt G t').ripple_effect
      = ((List.insertionSort strLeR (rippleUnion G (predecessors G t'))).filter
          (fun n => !(predecessors G t').contains n && n != t')).take 20 := rfl
  have hdi : (analyzeAt G t').direct_impact = predecessors G t' := rfl
  rw [hA]
  refine ⟨?_, ?_, ?_, ?_⟩
  · rw [hre, ripple_filter_eq]
  · rw [hre]
    exact List.Pairwise.sublist (List.take_sublist _ _)
      ((List.sorted_insertionSort strLeR _).filter _)
  · rw [hre]
    exact List.length_take_le _ _
  · intro n hn
    rw [hre] at hn
    have hn' := List.mem_of_mem_take hn
    have hmf := List.mem_filter.mp hn'
    have hmem : n ∈ rippleUnion G (predecessors G t') :=
      (List.mem_insertionSort strLeR).mp hmf.1
    have hcond := hmf.2
    rw [Bool.and_eq_true] at hcond
    have hns : n ∈ G.nodeIds ∧
        ((predecessors G t').foldl (fun acc b => acc ++ ancestors G b) []).contains n
          = true := by
      have := List.mem_filter.mp hmem
      exact ⟨this.1, this.2⟩
    rw [contains_rippleFold] at hns
    have hany : (predecessors G t').any (fun b => (ancestors G b).contains n) = true := by
      have := hns.2
      simpa using this
    rcases List.any_eq_true.mp hany with ⟨b, hb, hbn⟩
    refine ⟨⟨b, by rw [hdi]; exact hb, List.elem_iff.mp hbn⟩, ?_, ?_⟩
    · rw [hdi]
      intro hcontra
      have : (predecessors G t').contains n = true := List.elem_iff.mpr hcontra
      rw [this] at hcond
      simpa using hcond.1
    · have := hcond.2
      simpa using this

/-- Witness for C1: the theorem applied to `exGraph` and target `t`. -/

theorem c1_ripple_effect_spec_witness :
    (analyze_impact exGraph "t").ripple_effect
      = (List.insertionSort strLeR (specRipple exGraph "t" (predecessors exGraph "t"))).take 20 :=
  (c1_ripple_effect_spec exGraph "t" "t" (by decide)).1

/-! ## Claim C2 -/

/-- C2 as amended: for every resolvable target, `risk_score` equals
`min(100, 10·|direct_impact| + 2·r)` where `r` is the size of the ripple
set before truncation to 20; and every returned `risk_score` is at most
100. -/

theorem c2_risk_formula (G : Graph) (t t' : String)
    (h : resolveTarget G t = some t') :
    (analyze_impact G t).risk_score
      = min 100 (10 * (analyze_impact G t).direct_impact.length
          + 2 * (specRipple G t' (predecessors G t')).length) ∧
    ∀ s : String, (analyze_impact G s).risk_score ≤ 100 := by
  constructor
  · have hA : analyze_impact G t = analyzeAt G t' := by
      simp only [analyze_impact, h]
    have hdi : (analyzeAt G t').direct_impact = predecessors G t' := rfl
    have hrs : (analyzeAt G t').risk_score
        = min 100 (10 * (predecessors G t').length
            + 2 * ((List.insertionSort strLeR (rippleUnion G (predecessors G t'))).filter
                (fun n => !(predecessors G t').contains n && n != t')).length) := rfl
    rw [hA, hrs, hdi, ripple_filter_eq, (List.perm_insertionSort strLeR _).length_eq]
  · intro s
    simp only [analyze_impact]
    cases hr : resolveTarget G s with
    | none => simp
    | some s' =>
      have hrs : (analyzeAt G s').risk_score
          = min 100 (10 * (predecessors G s').length
              + 2 * ((List.insertionSort strLeR (rippleUnion G (predecessors G s'))).filter
                  (fun n => !(predecessors G s').contains n && n != s')).length) := rfl
      simp only [hrs]
      exact min_le_left _ _

/-- Witness for C2 (amended): the formula instance at `wideGraph`. -/

theorem c2_risk_formula_witness :
    (analyze_impact wideGraph "t").risk_score
      = min 100 (10 * (analyze_impact wideGraph "t").direct_impact.length
          + 2 * (specRipple wideGraph "t" (predecessors wideGraph "t")).length) :=
  (c2_risk_formula wideGraph "t" "t" (by decide)).1

/-- Counterexample to C2 as stated: in `wideGraph` the pre-truncation
ripple list has 21 entries, so the returned `risk_score` is 52 while the
claimed formula over the returned (truncated) `ripple_effect` gives 50. -/

theorem c2_counterexample :
    ¬ ((analyze_impact wideGraph "t").risk_score
        = min 100 (10 * (analyze_impact wideGraph "t").direct_impact.length
            + 2 * (analyze_impact wideGraph "t").ripple_effect.length)) := by decide

/-! ## Claim C3 -/

/-- C3: `analyze_impact` resolves the target by exact id match first; if
that fails, by the first node id having the target as a suffix; and if no
node id has the target as a suffix, it returns the zero-impact prediction
`⟨t, [], [], 0⟩` (the embedding is a total function — no error is raised). -/

theorem c3_resolution (G : Graph) (t : String) :
    (G.hasNode t = true →
      analyze_impact G t = analyzeAt G t ∧ (analyze_impact G t).target_node = t) ∧
    (G.hasNode t = false →
      ∀ m, (G.nodeIds.filter (fun n => strEndsWith n t)).head? = some m →
        analyze_impact G t = analyzeAt G m ∧
        (analyze_impact G t).target_node = m ∧ G.hasNode m = true) ∧
    (G.hasNode t = false →
      (G.nodeIds.filter (fun n => strEndsWith n t)).head? = none →
      analyze_impact G t = ⟨t, [], [], 0⟩) := by
  refine ⟨?_, ?_, ?_⟩
  · intro ht
    have hres : resolveTarget G t = some t := by
      simp [resolveTarget, ht]
    constructor
    · simp only [analyze_impact, hres]
    · simp only [analyze_impact, hres]
      rfl
  · intro ht m hm
    have hmem : m ∈ G.nodeIds := by
      rcases List.head?_eq_some_iff.mp hm with ⟨ys, hys⟩
      have : m ∈ G.nodeIds.filter (fun n => strEndsWith n t) := by
        rw [hys]
        exact List.mem_cons_self _ _
      exact List.mem_of_mem_filter this
    have hmB : G.hasNode m = true := by
      simp only [Graph.hasNode, List.contains]
      exact List.elem_iff.mpr hmem
    have hres : resolveTarget G t = some m := by
      simp [resolveTarget, ht, hm]
    refine ⟨by simp only [analyze_impact, hres], ?_, hmB⟩
    simp only [analyze_impact, hres]
    rfl
  · intro ht hm
    have hres : resolveTarget G t = none := by
      simp [resolveTarget, ht, hm]
    simp only [analyze_impact, hres]

/-- Witness for C3: the unresolved branch at `exGraph` with target `zzz`,
and the suffix-fallback branch with the empty target (every id ends with
the empty string, so the first node id `a` is taken). -/

theorem c3_resolution_witness :
    analyze_impact exGraph "zzz" = ⟨"zzz", [], [], 0⟩ ∧
    (analyze_impact exGraph "").target_node = "a" :=
  ⟨(c3_resolution exGraph "zzz").2.2 (by decide) (by decide),
   ((c3_resolution exGraph "").2.1 (by decide) "a" (by decide)).2.1⟩

theorem applyEvent_bounds (now : Nat) (s : NeuronState) (e : Event)
    (h : stateInBounds s) : stateInBounds (applyEvent now s e) := by
  obtain ⟨h1, h2, h3, h4⟩ := h
  cases e with
  | execution =>
    refine ⟨?_, ?_, h3, h4⟩
    · exact le_min (by norm_num) (by linarith)
    · exact min_le_left _ _
  | error msg =>
    refine ⟨h1, h2, ?_, ?_⟩
    · exact le_min (by norm_num) (by linarith)
    · exact min_le_left _ _
  | variable_update p => exact ⟨h1, h2, h3, h4⟩
  | other => exact ⟨h1, h2, h3, h4⟩

theorem applyEvents_bounds (s : NeuronState) (evs : List (Nat × Event))
    (h : stateInBounds s) : stateInBounds (applyEvents s evs) := by
  induction evs generalizing s with
  | nil => exact h
  | cons e es ih =>
    exact ih _ (applyEvent_bounds e.1 s e.2 h)

/-! ## Claim C4 -/

/-- C4: for every node state within bounds and every finite event
sequence, `activation_level` and `error_rate` stay in `[0, 1]`; from the
fresh state, ten consecutive `execution` events leave `activation_level`
at exactly 1 (never above), and twenty consecutive `error` events cap
`error_rate` at exactly 1. -/

theorem c4_bounds_and_caps :
    (∀ (s : NeuronState) (evs : List (Nat × Event)),
      stateInBounds s → stateInBounds (applyEvents s evs)) ∧
    (applyEvents NeuronState.init
      (List.replicate 10 (0, Event.execution))).activation_level = 1 ∧
    (∀ evs : List (Nat × Event),
      (applyEvents NeuronState.init evs).activation_level ≤ 1) ∧
    (applyEvents NeuronState.init
      (List.replicate 20 (0, Event.error none))).error_rate = 1 := by
  have hinit : stateInBounds NeuronState.init := by
    norm_num [stateInBounds, NeuronState.init]
  refine ⟨applyEvents_bounds, ?_, ?_, ?_⟩
  · have h : List.replicate 10 ((0 : Nat), Event.execution)
        = [(0, .execution), (0, .execution), (0, .execution), (0, .execution), (0, .execution),
           (0, .execution), (0, .execution), (0, .execution), (0, .execution), (0, .execution)] :=
      rfl
    rw [h]
    norm_num [applyEvents, applyEvent, min_def, NeuronState.init]
  · intro evs
    exact (applyEvents_bounds NeuronState.init evs hinit).2.1
  · have h : List.replicate 20 ((0 : Nat), Event.error none)
        = [(0, .error none), (0, .error none), (0, .error none), (0, .error none),
           (0, .error none), (0, .error none), (0, .error none), (0, .error none),
           (0, .error none), (0, .error none), (0, .error none), (0, .error none),
           (0, .error none), (0, .error none), (0, .error none), (0, .error none),
           (0, .error none), (0, .error none), (0, .error none), (0, .error none)] :=
      rfl
    rw [h]
    norm_num [applyEvents, applyEvent, min_def, NeuronState.init]

/-- Witness for C4: the bounds invariant applied to the fresh state and a
concrete mixed event sequence. -/

theorem c4_bounds_and_caps_witness :
    stateInBounds (applyEvents NeuronState.init
      [(0, Event.execution), (1, Event.error (some "boom")), (2, Event.other)]) :=
  c4_bounds_and_caps.1 NeuronState.init _ (by norm_num [stateInBounds, NeuronState.init])

/-! ## Claim C5 -/

/-- Counterexample to C5 as stated: after six `error` events, the
in-memory `NeuronState.logs` list holds six entries — the field itself is
never truncated; only its serialized form keeps the last 5. -/

theorem c5_counterexample :
    (applyEvents NeuronState.init
      (List.replicate 6 (0, Event.error none))).logs.length = 6 ∧
    ¬ ((applyEvents NeuronState.init
      (List.replicate 6 (0, Event.error none))).logs.length ≤ 5) := by
  constructor <;> decide

/-- C5 as amended: after any finite event sequence, the serialized log
tail (`to_dict`, which is also what the overlay persists) holds at most
the 5 most recent entries — a suffix of the in-memory list, namely the
Python slice `logs[-5:]`; the in-memory list itself is unbounded. -/

theorem c5_log_tail (s : NeuronState) (evs : List (Nat × Event)) :
    ((applyEvents s evs).to_dict).logs.length ≤ 5 ∧
    ((applyEvents s evs).to_dict).logs <:+ (applyEvents s evs).logs ∧
    ((applyEvents s evs).to_dict).logs
      = (applyEvents s evs).logs.drop ((applyEvents s evs).logs.length - 5) := by
  refine ⟨?_, ?_, rfl⟩
  · show ((applyEvents s evs).logs.drop ((applyEvents s evs).logs.length - 5)).length ≤ 5
    rw [List.length_drop]
    omega
  · exact List.drop_suffix _ _

theorem lookup_applyFileEntry (m : List (String × NeuronState))
    (k : String) (d : NeuronStateDict) (id : String) :
    lookupState (applyFileEntry m k d) id
      = if k = id then (lookupState m id).map (fun s => updateFromDict s d)
        else lookupState m id := by
  induction m with
  | nil =>
    by_cases hk : k = id
    · rw [if_pos hk]; rfl
    · rw [if_neg hk]; rfl
  | cons p rest ih =>
    obtain ⟨k1, s1⟩ := p
    have hcons : applyFileEntry ((k1, s1) :: rest) k d
        = (if k1 = k then (k1, updateFromDict s1 d) else (k1, s1)) :: applyFileEntry rest k d :=
      rfl
    by_cases h1 : k1 = k
    · rw [hcons, if_pos h1]
      by_cases h2 : k1 = id
      · have hk : k = id := h1.symm.trans h2
        rw [if_pos hk]
        simp only [lookupState, if_pos h2]
        rfl
      · have hk : ¬ k = id := fun hc => h2 (h1.trans hc)
        rw [if_neg hk]
        simp only [lookupState, if_neg h2]
        rw [ih, if_neg hk]
    · rw [hcons, if_neg h1]
      by_cases h2 : k1 = id
      · have hk : ¬ k = id := fun hc => h1 (h2.trans hc.symm)
        rw [if_neg hk]
        simp only [lookupState, if_pos h2]
      · by_cases hk : k = id
        · rw [if_pos hk]
          simp only [lookupState, if_neg h2]
          rw [ih, if_pos hk]
        · rw [if_neg hk]
          simp only [lookupState, if_neg h2]
          rw [ih, if_neg hk]

theorem stateKeys_applyFileEntry (m : List (String × NeuronState))
    (k : String) (d : NeuronStateDict) :
    stateKeys (applyFileEntry m k d) = stateKeys m := by
  simp only [stateKeys, applyFileEntry, List.map_map]
  congr 1
  funext p
  by_cases h : p.1 = k <;> simp [h]

theorem stateKeys_loadEntries (es : List (String × NeuronStateDict))
    (m : List (String × NeuronState)) :
    stateKeys (loadEntries es m) = stateKeys m := by
  induction es generalizing m with
  | nil => rfl
  | cons e es ih =>
    show stateKeys (loadEntries es (applyFileEntry m e.1 e.2)) = stateKeys m
    rw [ih, stateKeys_applyFileEntry]

theorem lookup_loadEntries_not_mem (es : List (String × NeuronStateDict)) :
    ∀ (m : List (String × NeuronState)) (id : String),
      id ∉ es.map (·.1) →
      lookupState (loadEntries es m) id = lookupState m id := by
  induction es with
  | nil => intro m id _; rfl
  | cons e es ih =>
    intro m id h
    simp only [List.map_cons, List.mem_cons, not_or] at h
    show lookupState (loadEntries es (applyFileEntry m e.1 e.2)) id = lookupState m id
    rw [ih _ _ h.2, lookup_applyFileEntry, if_neg (fun hc => h.1 hc.symm)]

theorem lookup_loadEntries_mem (es : List (String × NeuronStateDict)) :
    ∀ (m : List (String × NeuronState)) (id : String) (d : NeuronStateDict),
      (es.map (·.1)).Nodup → (id, d) ∈ es →
      lookupState (loadEntries es m) id
        = (lookupState m id).map (fun s => updateFromDict s d) := by
  induction es with
  | nil => intro m id d _ hmem; cases hmem
  | cons e es ih =>
    intro m id d hnd hmem
    rw [List.map_cons, List.nodup_cons] at hnd
    rcases List.mem_cons.mp hmem with he | hmem2
    · subst he
      show lookupState (loadEntries es (applyFileEntry m id d)) id
        = (lookupState m id).map (fun s => updateFromDict s d)
      rw [lookup_loadEntries_not_mem es _ id hnd.1, lookup_applyFileEntry, if_pos rfl]
    · have hne : e.1 ≠ id := by
        intro hc
        exact hnd.1 (hc ▸ List.mem_map.mpr ⟨(id, d), hmem2, rfl⟩)
      show lookupState (loadEntries es (applyFileEntry m e.1 e.2)) id
        = (lookupState m id).map (fun s => updateFromDict s d)
      rw [ih _ _ _ hnd.2 hmem2, lookup_applyFileEntry, if_neg hne]

theorem lookupState_mem (m : List (String × NeuronState)) (id : String)
    (s : NeuronState) (h : lookupState m id = some s) : (id, s) ∈ m := by
  induction m with
  | nil => cases h
  | cons p rest ih =>
    obtain ⟨k1, s1⟩ := p
    by_cases hk : k1 = id
    · subst hk
      have hv : lookupState ((k1, s1) :: rest) k1 = some s1 := by
        simp [lookupState]
      rw [hv] at h
      have hs : s1 = s := Option.some_inj.mp h
      subst hs
      exact List.mem_cons_self _ _
    · simp only [lookupState, if_neg hk] at h
      exact List.mem_cons_of_mem _ (ih h)

theorem lookup_initialize (nodeIds : List String) (n : String)
    (h : n ∈ nodeIds) :
    lookupState (initialize_states nodeIds) n = some NeuronState.init := by
  induction nodeIds with
  | nil => cases h
  | cons a rest ih =>
    by_cases ha : a = n
    · subst ha
      simp [initialize_states, lookupState]
    · rcases List.mem_cons.mp h with hc | hc
      · exact absurd hc.symm ha
      · simp only [initialize_states, List.map_cons, lookupState, if_neg ha]
        exact ih hc

/-- Counterexample to C6 as stated: a rebuild includes the overlay load,
and an existing overlay file restores a nonzero activation level, so not
every node ends the rebuild with `activation_level = 0`. -/

theorem c6_counterexample :
    lookupState (rebuild ["a"] brainEx) "a" = some ⟨none, 1, 0, [], []⟩ ∧
    ¬ (∀ n r, n ∈ ["a"] → lookupState (rebuild ["a"] brainEx) n = some r →
        r.activation_level = 0 ∧ r.error_rate = 0) := by
  have h : lookupState (rebuild ["a"] brainEx) "a" = some ⟨none, 1, 0, [], []⟩ := rfl
  refine ⟨h, fun hall => ?_⟩
  have h0 := (hall "a" ⟨none, 1, 0, [], []⟩ (by simp) h).1
  norm_num at h0

/-- C6 as amended: after a rebuild every graph node has exactly one
NeuronState (the key list of the state map equals the node list, whatever
the overlay file holds), and that state has `activation_level = 0` and
`error_rate = 0` right after state initialization, a guarantee that
survives the overlay load whenever the overlay file is missing or
malformed — the load of an existing overlay may overwrite the levels with
the persisted values, which is what falsifies the unconditional claim. -/

theorem c6_rebuild_states (nodeIds : List String) :
    stateKeys (initialize_states nodeIds) = nodeIds ∧
    (∀ n ∈ nodeIds, lookupState (initialize_states nodeIds) n = some NeuronState.init) ∧
    (∀ f : BrainFile, stateKeys (rebuild nodeIds f) = nodeIds) ∧
    (∀ n ∈ nodeIds, lookupState (rebuild nodeIds .missing) n = some NeuronState.init) ∧
    (∀ n ∈ nodeIds, lookupState (rebuild nodeIds .malformed) n = some NeuronState.init) := by
  have hkeys : stateKeys (initialize_states nodeIds) = nodeIds := by
    simp only [stateKeys, initialize_states, List.map_map]
    exact List.map_id nodeIds
  refine ⟨hkeys, fun n hn => lookup_initialize nodeIds n hn, ?_, ?_, ?_⟩
  · intro f
    cases f with
    | missing => exact hkeys
    | malformed => exact hkeys
    | parsed es =>
      show stateKeys (loadEntries es (initialize_states nodeIds)) = nodeIds
      rw [stateKeys_loadEntries, hkeys]
  · intro n hn
    exact lookup_initialize nodeIds n hn
  · intro n hn
    exact lookup_initialize nodeIds n hn

/-- Witness for C6 (amended): a fresh two-node rebuild with no overlay
file leaves node `b` at the zero state. -/

theorem c6_rebuild_states_witness :
    lookupState (rebuild ["a", "b"] .missing) "b" = some NeuronState.init :=
  (c6_rebuild_states ["a", "b"]).2.2.2.1 "b" (by simp)

/-! ## Claim C7 -/

/-- C7: saving the overlay and reloading it into a freshly initialized
state map containing the id restores `activation_level`, `error_rate`,
`active_variables`, and the stored log tail (the last five log entries as
written) exactly. -/

theorem c7_save_load_roundtrip (m fresh : List (String × NeuronState))
    (id : String) (s f : NeuronState)
    (hnd : (stateKeys m).Nodup)
    (hs : lookupState m id = some s)
    (hf : lookupState fresh id = some f) :
    lookupState (load_state (save_state m) fresh) id
      = some (updateFromDict f s.to_dict) ∧
    (updateFromDict f s.to_dict).activation_level = s.activation_level ∧
    (updateFromDict f s.to_dict).error_rate = s.error_rate ∧
    (updateFromDict f s.to_dict).active_variables = s.active_variables ∧
    (updateFromDict f s.to_dict).logs = s.logs.drop (s.logs.length - 5) := by
  have hmem : (id, s) ∈ m := lookupState_mem m id s hs
  have hment : (id, s.to_dict) ∈ m.map (fun p => (p.1, p.2.to_dict)) :=
    List.mem_map.mpr ⟨(id, s), hmem, rfl⟩
  have hnd2 : ((m.map (fun p => (p.1, p.2.to_dict))).map (·.1)).Nodup := by
    have hk : (m.map (fun p => (p.1, p.2.to_dict))).map (·.1) = stateKeys m := by
      simp [stateKeys, List.map_map]
    rw [hk]
    exact hnd
  refine ⟨?_, rfl, rfl, rfl, rfl⟩
  show lookupState (loadEntries (m.map (fun p => (p.1, p.2.to_dict))) fresh) id = _
  rw [lookup_loadEntries_mem _ fresh id s.to_dict hnd2 hment, hf]
  rfl

/-- Witness for C7: a one-node overlay round-trip through a fresh map. -/

theorem c7_save_load_roundtrip_witness :
    lookupState (load_state (save_state [("a", stFull)]) (initialize_states ["a"])) "a"
      = some (updateFromDict NeuronState.init stFull.to_dict) :=
  (c7_save_load_roundtrip [("a", stFull)] (initialize_states ["a"]) "a" stFull
    NeuronState.init (by decide) rfl rfl).1

/-! ## Claim C8 -/

/-- C8: `load` never fails fatally — it is a total function over the
three file conditions: an absent file is a no-op, malformed content is
treated as an empty prior state (the map is unchanged), and on a
successful parse only ids already present in the current state map are
updated in place while file ids absent from the map are dropped (the key
set never changes) and all untouched ids keep their states. -/

theorem c8_load_total_behavior (m : List (String × NeuronState))
    (es : List (String × NeuronStateDict)) :
    load_state .missing m = m ∧
    load_state .malformed m = m ∧
    stateKeys (load_state (.parsed es) m) = stateKeys m ∧
    (∀ id, id ∉ es.map (·.1) →
      lookupState (load_state (.parsed es) m) id = lookupState m id) ∧
    (∀ id d s, (es.map (·.1)).Nodup → (id, d) ∈ es → lookupState m id = some s →
      lookupState (load_state (.parsed es) m) id = some (updateFromDict s d)) := by
  refine ⟨rfl, rfl, stateKeys_loadEntries es m, ?_, ?_⟩
  · intro id h
    exact lookup_loadEntries_not_mem es m id h
  · intro id d s hnd hmem hs
    show lookupState (loadEntries es m) id = _
    rw [lookup_loadEntries_mem es m id d hnd hmem, hs]
    rfl

/-- Witness for C8: a file carrying only an unknown id leaves the map
unchanged — the unknown id is dropped, the known id keeps its state. -/

theorem c8_load_total_behavior_witness :
    lookupState (load_state (.parsed [("ghost", stFull.to_dict)])
        [("a", NeuronState.init)]) "a" = some NeuronState.init ∧
    stateKeys (load_state (.parsed [("ghost", stFull.to_dict)])
        [("a", NeuronState.init)]) = ["a"] := by
  constructor
  · rw [(c8_load_total_behavior [("a", NeuronState.init)]
      [("ghost", stFull.to_dict)]).2.2.2.1 "a" (by decide)]
    rfl
  · exact (c8_load_total_behavior [("a", NeuronState.init)]
      [("ghost", stFull.to_dict)]).2.2.1

theorem hasNode_iff_mem (G : Graph) (j : String) :
    G.hasNode j = true ↔ j ∈ G.nodeIds := by
  simp [Graph.hasNode, List.contains, List.elem_iff]

theorem addNode_nodeIds_of_present (G : Graph) (id ty nm : String)
    (h : G.hasNode id = true) :
    (addNode G id ty nm).nodeIds = G.nodeIds := by
  rw [addNode, if_pos h]
  show (G.nodes.map fun m => if m.id = id then ⟨id, ty, nm⟩ else m).map (·.id) = G.nodeIds
  rw [Graph.nodeIds, List.map_map]
  congr 1
  funext m
  by_cases hm : m.id = id <;> simp [hm]

theorem hasNode_addNode_of (G : Graph) (id ty nm j : String)
    (h : G.hasNode j = true) : (addNode G id ty nm).hasNode j = true := by
  by_cases hid : G.hasNode id = true
  · rw [hasNode_iff_mem] at h ⊢
    rw [addNode_nodeIds_of_present G id ty nm hid]
    exact h
  · rw [hasNode_iff_mem] at h ⊢
    rw [addNode, if_neg hid]
    show j ∈ ((G.nodes ++ [(⟨id, ty, nm⟩ : GNode)]).map (·.id))
    rw [List.map_append]
    exact List.mem_append_left _ h

theorem hasNode_addNode_self (G : Graph) (id ty nm : String) :
    (addNode G id ty nm).hasNode id = true := by
  by_cases hid : G.hasNode id = true
  · rw [hasNode_iff_mem]
    rw [addNode_nodeIds_of_present G id ty nm hid]
    exact (hasNode_iff_mem G id).mp hid
  · rw [hasNode_iff_mem, addNode, if_neg hid]
    show id ∈ ((G.nodes ++ [(⟨id, ty, nm⟩ : GNode)]).map (·.id))
    rw [List.map_append]
    exact List.mem_append_right _ (by simp)

theorem addEdge_nodes (G : Graph) (s t ty : String) :
    (addEdge G s t ty).nodes = G.nodes := by
  rw [addEdge]
  split <;> rfl

theorem addNode_edges (G : Graph) (id ty nm : String) :
    (addNode G id ty nm).edges = G.edges := by
  rw [addNode]
  split <;> rfl

theorem hasNode_addEdge (G : Graph) (s t ty j : String) :
    (addEdge G s t ty).hasNode j = G.hasNode j := by
  simp [Graph.hasNode, Graph.nodeIds, addEdge_nodes]

theorem hasPair_addEdge_self (G : Graph) (s t ty : String) :
    hasPair (addEdge G s t ty) s t := by
  rw [addEdge]
  by_cases h : G.edges.any (fun e => e.source == s && e.target == t) = true
  · rw [if_pos h]
    rcases List.any_eq_true.mp h with ⟨e0, he0, hc⟩
    refine ⟨ty, ?_⟩
    show _ ∈ G.edges.map fun e => if e.source == s && e.target == t then ⟨s, t, ty⟩ else e
    exact List.mem_map.mpr ⟨e0, he0, by rw [if_pos hc]⟩
  · rw [if_neg h]
    exact ⟨ty, List.mem_append_right _ (by simp)⟩

theorem hasPair_addEdge_mono (G : Graph) (s t s2 t2 ty2 : String)
    (h : hasPair G s t) : hasPair (addEdge G s2 t2 ty2) s t := by
  obtain ⟨ty0, hmem⟩ := h
  rw [addEdge]
  by_cases hc : G.edges.any (fun e => e.source == s2 && e.target == t2) = true
  · rw [if_pos hc]
    by_cases hme : ((⟨s, t, ty0⟩ : GEdge).source == s2 && (⟨s, t, ty0⟩ : GEdge).target == t2) = true
    · have hs2 : s = s2 ∧ t = t2 := by
        simpa using hme
      refine ⟨ty2, List.mem_map.mpr ⟨⟨s, t, ty0⟩, hmem, ?_⟩⟩
      rw [if_pos hme, hs2.1, hs2.2]
    · exact ⟨ty0, List.mem_map.mpr ⟨⟨s, t, ty0⟩, hmem, by rw [if_neg hme]⟩⟩
  · rw [if_neg hc]
    exact ⟨ty0, List.mem_append_left _ hmem⟩

theorem hasPair_buildStep_mono (G : Graph) (e : DependencyEdge) (s t : String)
    (h : hasPair G s t) : hasPair (buildStep G e) s t := by
  rw [buildStep]
  split
  · exact hasPair_addEdge_mono _ _ _ _ _ _ h
  · split
    · apply hasPair_addEdge_mono
      split
      · exact h
      · obtain ⟨ty0, hm⟩ := h
        exact ⟨ty0, by rw [addNode_edges]; exact hm⟩
    · exact h

theorem hasNode_buildStep (G : Graph) (e : DependencyEdge) (j : String)
    (h : G.hasNode j = true) : (buildStep G e).hasNode j = true := by
  rw [buildStep]
  split
  · rw [hasNode_addEdge]; exact h
  · split
    · rw [hasNode_addEdge]
      split
      · exact h
      · exact hasNode_addNode_of _ _ _ _ _ h
    · exact h

theorem buildStep_inserts (G : Graph) (e : DependencyEdge)
    (h : G.hasNode e.source = true) : hasPair (buildStep G e) e.source e.target := by
  rw [buildStep]
  by_cases h1 : (G.hasNode e.source && G.hasNode e.target) = true
  · rw [if_pos h1]
    exact hasPair_addEdge_self _ _ _ _
  · rw [if_neg h1, if_pos h]
    exact hasPair_addEdge_self _ _ _ _

theorem hasPair_fold_mono (es : List DependencyEdge) :
    ∀ (G : Graph) (s t : String), hasPair G s t → hasPair (es.foldl buildStep G) s t := by
  induction es with
  | nil => intro G s t h; exact h
  | cons e es ih =>
    intro G s t h
    exact ih _ _ _ (hasPair_buildStep_mono G e s t h)

theorem hasNode_fold (es : List DependencyEdge) :
    ∀ (G : Graph) (j : String), G.hasNode j = true →
      (es.foldl buildStep G).hasNode j = true := by
  induction es with
  | nil => intro G j h; exact h
  | cons e es ih =>
    intro G j h
    exact ih _ _ (hasNode_buildStep G e j h)

theorem fold_inserts (es : List DependencyEdge) :
    ∀ (G : Graph) (e : DependencyEdge), e ∈ es → G.hasNode e.source = true →
      hasPair (es.foldl buildStep G) e.source e.target := by
  induction es with
  | nil => intro G e he; cases he
  | cons e0 es ih =>
    intro G e he hs
    rcases List.mem_cons.mp he with he0 | hes
    · subst he0
      exact hasPair_fold_mono es _ _ _ (buildStep_inserts G e hs)
    · exact ih _ _ hes (hasNode_buildStep G e0 e.source hs)

theorem edgesClosed_addNode (G : Graph) (id ty nm : String)
    (h : edgesClosed G) : edgesClosed (addNode G id ty nm) := by
  intro e he
  rw [addNode_edges] at he
  obtain ⟨h1, h2⟩ := h e he
  exact ⟨hasNode_addNode_of _ _ _ _ _ h1, hasNode_addNode_of _ _ _ _ _ h2⟩

theorem edgesClosed_addEdge (G : Graph) (s t ty : String)
    (hs : G.hasNode s = true) (ht : G.hasNode t = true)
    (h : edgesClosed G) : edgesClosed (addEdge G s t ty) := by
  intro e he
  rw [hasNode_addEdge, hasNode_addEdge]
  rw [addEdge] at he
  split at he
  · rcases List.mem_map.mp he with ⟨e0, he0, hmap⟩
    by_cases hc : (e0.source == s && e0.target == t) = true
    · rw [if_pos hc] at hmap
      rw [← hmap]
      exact ⟨hs, ht⟩
    · rw [if_neg hc] at hmap
      rw [← hmap]
      exact h e0 he0
  · rcases List.mem_append.mp he with h1 | h1
    · exact h e h1
    · have : e = ⟨s, t, ty⟩ := by simpa using h1
      rw [this]
      exact ⟨hs, ht⟩

theorem edgesClosed_buildStep (G : Graph) (e : DependencyEdge)
    (h : edgesClosed G) : edgesClosed (buildStep G e) := by
  rw [buildStep]
  by_cases h1 : (G.hasNode e.source && G.hasNode e.target) = true
  · rw [if_pos h1]
    rw [Bool.and_eq_true] at h1
    exact edgesClosed_addEdge G _ _ _ h1.1 h1.2 h
  · rw [if_neg h1]
    by_cases h2 : G.hasNode e.source = true
    · rw [if_pos h2]
      by_cases h3 : G.hasNode e.target = true
      · rw [if_pos h3]
        exact edgesClosed_addEdge G _ _ _ h2 h3 h
      · rw [if_neg h3]
        exact edgesClosed_addEdge _ _ _ _
          (hasNode_addNode_of _ _ _ _ _ h2) (hasNode_addNode_self _ _ _ _)
          (edgesClosed_addNode _ _ _ _ h)
    · rw [if_neg h2]
      exact h

theorem edgesClosed_fold (es : List DependencyEdge) :
    ∀ (G : Graph), edgesClosed G → edgesClosed (es.foldl buildStep G) := by
  induction es with
  | nil => intro G h; exact h
  | cons e es ih =>
    intro G h
    exact ih _ (edgesClosed_buildStep G e h)

theorem nodesFromOrModule_addNode_module (keys : List String) (G : Graph)
    (id nm : String) (h : nodesFromOrModule keys G) :
    nodesFromOrModule keys (addNode G id "module" nm) := by
  intro gn hgn
  rw [addNode] at hgn
  split at hgn
  · rcases List.mem_map.mp hgn with ⟨m, hm, hmap⟩
    by_cases hc : m.id = id
    · rw [if_pos hc] at hmap
      rw [← hmap]
      right
      rfl
    · rw [if_neg hc] at hmap
      rw [← hmap]
      exact h m hm
  · rcases List.mem_append.mp hgn with h1 | h1
    · exact h gn h1
    · have : gn = ⟨id, "module", nm⟩ := by simpa using h1
      rw [this]
      right
      rfl

theorem nodesFromOrModule_buildStep (keys : List String) (G : Graph)
    (e : DependencyEdge) (h : nodesFromOrModule keys G) :
    nodesFromOrModule keys (buildStep G e) := by
  rw [buildStep]
  by_cases h1 : (G.hasNode e.source && G.hasNode e.target) = true
  · rw [if_pos h1]
    intro gn hgn
    rw [addEdge_nodes] at hgn
    exact h gn hgn
  · rw [if_neg h1]
    by_cases h2 : G.hasNode e.source = true
    · rw [if_pos h2]
      intro gn hgn
      rw [addEdge_nodes] at hgn
      by_cases h3 : G.hasNode e.target = true
      · rw [if_pos h3] at hgn
        exact h gn hgn
      · rw [if_neg h3] at hgn
        exact nodesFromOrModule_addNode_module keys G _ _ h gn hgn
    · rw [if_neg h2]
      exact h

theorem nodesFromOrModule_fold (keys : List String) (es : List DependencyEdge) :
    ∀ (G : Graph), nodesFromOrModule keys G →
      nodesFromOrModule keys (es.foldl buildStep G) := by
  induction es with
  | nil => intro G h; exact h
  | cons e es ih =>
    intro G h
    exact ih _ (nodesFromOrModule_buildStep keys G e h)

theorem nodesFrom_addNode (keys : List String) (G : Graph)
    (id ty nm : String) (hid : id ∈ keys)
    (h : nodesFromOrModule keys G) :
    nodesFromOrModule keys (addNode G id ty nm) := by
  intro gn hgn
  rw [addNode] at hgn
  split at hgn
  · rcases List.mem_map.mp hgn with ⟨m, hm, hmap⟩
    by_cases hc : m.id = id
    · rw [if_pos hc] at hmap
      rw [← hmap]
      left
      exact hid
    · rw [if_neg hc] at hmap
      rw [← hmap]
      exact h m hm
  · rcases List.mem_append.mp hgn with h1 | h1
    · exact h gn h1
    · have : gn = ⟨id, ty, nm⟩ := by simpa using h1
      rw [this]
      left
      exact hid

theorem nodeFold_invariant (ns : List DependencyNode) (keys : List String)
    (hks : ∀ n ∈ ns, nodeKey n ∈ keys) :
    ∀ (G : Graph), nodesFromOrModule keys G →
      nodesFromOrModule keys
        (ns.foldl (fun G n => addNode G (nodeKey n) n.node_type n.name) G) := by
  induction ns with
  | nil => intro G h; exact h
  | cons n ns ih =>
    intro G h
    exact ih (fun m hm => hks m (List.mem_cons_of_mem _ hm)) _
      (nodesFrom_addNode keys G _ _ _ (hks n (List.mem_cons_self _ _)) h)

theorem nodeFold_hasNode (ns : List DependencyNode) :
    ∀ (G : Graph) (k : String),
      (G.hasNode k = true ∨ k ∈ ns.map nodeKey) →
      (ns.foldl (fun G n => addNode G (nodeKey n) n.node_type n.name) G).hasNode k
        = true := by
  induction ns with
  | nil =>
    intro G k h
    rcases h with h | h
    · exact h
    · cases h
  | cons n ns ih =>
    intro G k h
    rcases h with h | h
    · exact ih _ k (Or.inl (hasNode_addNode_of _ _ _ _ _ h))
    · rw [List.map_cons] at h
      rcases List.mem_cons.mp h with hk | hk
      · subst hk
        exact ih _ _ (Or.inl (hasNode_addNode_self _ _ _ _))
      · exact ih _ _ (Or.inr hk)

theorem nodeFold_edges (ns : List DependencyNode) :
    ∀ (G : Graph),
      (ns.foldl (fun G n => addNode G (nodeKey n) n.node_type n.name) G).edges
        = G.edges := by
  induction ns with
  | nil => intro G; rfl
  | cons n ns ih =>
    intro G
    rw [List.foldl_cons, ih, addNode_edges]

/-! ## Claim C9 -/

/-- Counterexample to C9 as stated: an edge whose source id matches no
inserted node is silently skipped, not inserted — `build_graph` only
auto-creates placeholders for missing targets, never for missing
sources. -/

theorem c9_counterexample :
    (build_graph [] [⟨"ghost", "x", "import"⟩]).edges = [] ∧
    ¬ hasPair (build_graph [] [⟨"ghost", "x", "import"⟩]) "ghost" "x" := by
  have h : (build_graph [] [⟨"ghost", "x", "import"⟩]).edges = [] := by decide
  refine ⟨h, ?_⟩
  rintro ⟨ty, hmem⟩
  rw [h] at hmem
  exact absurd hmem (List.not_mem_nil _)

/-- C9 as amended: every given edge whose source id is the key of one of
the given nodes is inserted into the resulting graph (a placeholder
`module` node being auto-created when the target id is missing), edges
with an unresolvable source are dropped, and in the resulting graph every
edge's source and target resolve to an existing node — every node being
either one of the given node keys or an auto-created `module`
placeholder. -/

theorem c9_build_graph (nodes : List DependencyNode)
    (edges : List DependencyEdge) :
    (∀ e ∈ edges, e.source ∈ nodes.map nodeKey →
      hasPair (build_graph nodes edges) e.source e.target) ∧
    edgesClosed (build_graph nodes edges) ∧
    nodesFromOrModule (nodes.map nodeKey) (build_graph nodes edges) := by
  have hG1closed : edgesClosed
      (nodes.foldl (fun G n => addNode G (nodeKey n) n.node_type n.name) ⟨[], []⟩) := by
    intro e he
    rw [nodeFold_edges] at he
    exact absurd he (List.not_mem_nil _)
  have hG1nodes : nodesFromOrModule (nodes.map nodeKey)
      (nodes.foldl (fun G n => addNode G (nodeKey n) n.node_type n.name) ⟨[], []⟩) :=
    nodeFold_invariant nodes _ (fun n hn => List.mem_map_of_mem _ hn) _
      (fun gn hgn => absurd hgn (List.not_mem_nil _))
  refine ⟨?_, edgesClosed_fold edges _ hG1closed,
    nodesFromOrModule_fold _ edges _ hG1nodes⟩
  intro e he hsrc
  exact fold_inserts edges _ e he (nodeFold_hasNode nodes _ e.source (Or.inr hsrc))

/-- Witness for C9 (amended): a file node importing an unseen module gets
its edge inserted, with the target auto-created. -/

theorem c9_build_graph_witness :
    hasPair (build_graph [⟨"a", "file", some "a.py"⟩]
      [⟨"a.py", "requests", "import"⟩]) "a.py" "requests" :=
  (c9_build_graph [⟨"a", "file", some "a.py"⟩]
    [⟨"a.py", "requests", "import"⟩]).1 ⟨"a.py", "requests", "import"⟩
    (by decide) (by decide)

/-! ## Claim C10 -/

/-- C10: an import statement naming several modules contributes at most
one `Imports` edge, determined solely by the first named module's
top-level name — the second and later names never produce an edge (the
result does not depend on them), as in the concrete instance
`import requests.adapters, numpy`. -/

theorem c10_import_first_name_only (src n1 : String) (rest : List String) :
    importEdges src (n1 :: rest) = importEdges src [n1] ∧
    (∀ e ∈ importEdges src (n1 :: rest),
      e.source = src ∧ e.target = topLevelModule n1) ∧
    importEdges "f.py" ["requests.adapters", "numpy"]
      = [⟨"f.py", "requests", "import"⟩] := by
  refine ⟨rfl, ?_, by decide⟩
  intro e he
  simp only [importEdges] at he
  by_cases hc : (topLevelModule n1 != ""
      && !(pythonImportExclusions.contains (topLevelModule n1))) = true
  · rw [if_pos hc] at he
    have : e = ⟨src, topLevelModule n1, "import"⟩ := by simpa using he
    rw [this]
    exact ⟨rfl, rfl⟩
  · rw [if_neg hc] at he
    exact absurd he (List.not_mem_nil _)


/-- Witness for C10: the edge produced by `import requests.adapters, numpy`
is for the first name's top-level module only. -/
theorem c10_import_first_name_only_witness :
    (⟨"f.py", "requests", "import"⟩ : DependencyEdge).source = "f.py" ∧
    (⟨"f.py", "requests", "import"⟩ : DependencyEdge).target
      = topLevelModule "requests.adapters" :=
  (c10_import_first_name_only "f.py" "requests.adapters" ["numpy"]).2.1
    ⟨"f.py", "requests", "import"⟩ (by decide)

end NeuroVision
